import Mathlib

set_option maxHeartbeats 1000000

/- Shallow embedding of the forwardcache repository: the byte-budgeted LRU
layer (package lru), the boundary proxy (proxy.ServeHTTP), the routing
client (client.go), the peer composition (peer.go), and a consistent-hash
ring modelled from the spec (the consistenthash package sources are not in
the repository snapshot).  Go machine integers that matter here (sizes,
capacities) are modelled as Int/Nat; byte slices as List Nat; mutexes are
dropped (each operation is one atomic step on the state, matching the
critical sections of the Go code); calls to the wrapped backing store are
recorded as an explicit trace in program order. -/

/-- Backing-store operations the LRU layer issues to the wrapped
httpcache.Cache, recorded in program order. -/
inductive StoreOp where
  | get : String → StoreOp
  | set : String → List Nat → StoreOp
  | del : String → StoreOp
  deriving DecidableEq, Repr

/-- State of lru.Cache (part_001): `cap` is the remaining byte budget
(the Go field `cap`, decremented on insert, incremented on purge), and
`items` is the recency list most-recent-first, each entry carrying the
key and its tracked size (the Go `items` map plus `list`). -/
structure Cache where
  cap : Int
  items : List (String × Nat)
  deriving DecidableEq, Repr

/-- lru.New: empty index, full budget. -/
def Cache.New (cap : Int) : Cache := ⟨cap, []⟩

/-- Lookup `c.items[key]`, returning the tracked size. -/
def findItem (items : List (String × Nat)) (key : String) : Option Nat :=
  (items.find? (fun e => e.1 == key)).map (fun e => e.2)

/-- Remove the entry for `key` from the recency list (the list side of
`Cache.purge` / `MoveToFront`). -/
def eraseKey (items : List (String × Nat)) (key : String) : List (String × Nat) :=
  items.eraseP (fun e => e.1 == key)

/-- Sum of the tracked sizes of all index entries. -/
def sizeSum (l : List (String × Nat)) : Int :=
  (l.map (fun e => (e.2 : Int))).sum

/-- The eviction loop of Cache.Set (`for c.cap < 0 && c.list.Len() > 1`),
run on the recency list REVERSED (least-recent first, so the list back is
the head).  Returns the final budget, the surviving reversed list, and the
victim keys in eviction order. -/
def evictRev : Int → List (String × Nat) → Int × List (String × Nat) × List String
  | cap, [] => (cap, [], [])
  | cap, [x] => (cap, [x], [])
  | cap, x :: y :: rest =>
    if cap < 0 then
      let r := evictRev (cap + (x.2 : Int)) (y :: rest)
      (r.1, r.2.1, x.1 :: r.2.2)
    else (cap, x :: y :: rest, [])

/-- Cache.Set (part_001 lines 57-84): refresh or insert the entry at the
most-recent position, adjust the budget by the size delta, run the
eviction loop, then (outside the lock) delete the victims from the
backing store and store the new value. -/
def Cache.Set (c : Cache) (key : String) (resp : List Nat) : Cache × List StoreOp :=
  let step :=
    match findItem c.items key with
    | some old => ((key, resp.length) :: eraseKey c.items key, (resp.length : Int) - (old : Int))
    | none => ((key, resp.length) :: c.items, (resp.length : Int))
  let ev := evictRev (c.cap - step.2) step.1.reverse
  (⟨ev.1, ev.2.1.reverse⟩, ev.2.2.map StoreOp.del ++ [StoreOp.set key resp])

/-- Cache.Get (part_001 lines 44-54): on an index miss return (nil, false)
at once; on a hit move the entry to the front and read the backing store. -/
def Cache.Get (c : Cache) (store : String → Option (List Nat)) (key : String) :
    Option (List Nat) × Cache × List StoreOp :=
  match findItem c.items key with
  | none => (none, c, [])
  | some sz => (store key, ⟨c.cap, (key, sz) :: eraseKey c.items key⟩, [StoreOp.get key])

/-- Cache.Delete (part_001 lines 87-95): purge the index entry if present
(restoring its size to the budget), then always delete from the backing
store. -/
def Cache.Delete (c : Cache) (key : String) : Cache × List StoreOp :=
  match findItem c.items key with
  | some sz => (⟨c.cap + (sz : Int), eraseKey c.items key⟩, [StoreOp.del key])
  | none => (c, [StoreOp.del key])

/-- One LRU-layer operation, for reasoning about operation sequences. -/
inductive LruOp where
  | set : String → List Nat → LruOp
  | get : String → LruOp
  | del : String → LruOp
  deriving DecidableEq, Repr

/-- State transition of one LRU operation (the backing store does not
influence the index state, so Get is run against the empty store). -/
def applyOp (c : Cache) : LruOp → Cache
  | .set k v => (Cache.Set c k v).1
  | .get k => (Cache.Get c (fun _ => none) k).2.1
  | .del k => (Cache.Delete c k).1

/-- Run a sequence of LRU operations from the empty cache of capacity `cap`. -/
def runOps (cap : Int) (ops : List LruOp) : Cache :=
  ops.foldl applyOp (Cache.New cap)

/-- The claimed capacity invariant: tracked sizes sum to at most the
capacity, except in the sole permitted over-budget state of exactly one
(oversized) entry. -/
def CapInv (C : Int) (c : Cache) : Prop :=
  sizeSum c.items ≤ C ∨ (c.items.length = 1 ∧ C < sizeSum c.items)

/-- Induction invariant: the remaining budget mirrors the size sum, and
the capacity invariant holds. -/
def CapAcc (C : Int) (c : Cache) : Prop :=
  c.cap = C - sizeSum c.items ∧ CapInv C c

theorem sizeSum_nil : sizeSum [] = 0 := rfl

theorem sizeSum_cons (e : String × Nat) (l : List (String × Nat)) :
    sizeSum (e :: l) = (e.2 : Int) + sizeSum l := by
  simp [sizeSum]

theorem sizeSum_reverse (l : List (String × Nat)) : sizeSum l.reverse = sizeSum l := by
  simp [sizeSum, List.sum_reverse]

theorem sizeSum_eraseKey (l : List (String × Nat)) (key : String) (sz : Nat)
    (h : findItem l key = some sz) :
    sizeSum (eraseKey l key) = sizeSum l - (sz : Int) := by
  induction l with
  | nil => simp [findItem] at h
  | cons e t ih =>
    by_cases hk : (e.1 == key) = true
    · simp [findItem, List.find?_cons, hk] at h
      simp [eraseKey, List.eraseP_cons, hk, sizeSum_cons, h]
    · simp only [findItem, List.find?_cons, hk] at h
      have ht := ih h
      simp only [eraseKey, List.eraseP_cons, hk, cond_false, sizeSum_cons] at *
      omega

theorem length_eraseKey (l : List (String × Nat)) (key : String) (sz : Nat)
    (h : findItem l key = some sz) :
    (eraseKey l key).length + 1 = l.length := by
  induction l with
  | nil => simp [findItem] at h
  | cons e t ih =>
    by_cases hk : (e.1 == key) = true
    · simp [eraseKey, List.eraseP_cons, hk]
    · simp only [findItem, List.find?_cons, hk] at h
      have ht := ih h
      simp only [eraseKey, List.eraseP_cons, hk, cond_false, List.length_cons] at *
      omega

theorem evictRev_cap (cap : Int) (l : List (String × Nat)) :
    (evictRev cap l).1 + sizeSum (evictRev cap l).2.1 = cap + sizeSum l := by
  induction l generalizing cap with
  | nil => simp [evictRev]
  | cons x t ih =>
    cases t with
    | nil => simp [evictRev]
    | cons y rest =>
      by_cases hc : cap < 0
      · simp only [evictRev, if_pos hc]
        have := ih (cap + (x.2 : Int))
        simp only [sizeSum_cons] at *
        omega
      · simp [evictRev, if_neg hc]

theorem evictRev_stop (cap : Int) (l : List (String × Nat)) :
    0 ≤ (evictRev cap l).1 ∨ (evictRev cap l).2.1.length ≤ 1 := by
  induction l generalizing cap with
  | nil => right; simp [evictRev]
  | cons x t ih =>
    cases t with
    | nil => right; simp [evictRev]
    | cons y rest =>
      by_cases hc : cap < 0
      · simp only [evictRev, if_pos hc]
        exact ih (cap + (x.2 : Int))
      · left
        simp only [evictRev, if_neg hc]
        omega

theorem evictRev_getLast (cap : Int) (l : List (String × Nat)) (h : l ≠ []) :
    (evictRev cap l).2.1.getLast? = l.getLast? := by
  induction l generalizing cap with
  | nil => exact absurd rfl h
  | cons x t ih =>
    cases t with
    | nil => simp [evictRev]
    | cons y rest =>
      by_cases hc : cap < 0
      · simp only [evictRev, if_pos hc]
        rw [ih (cap + (x.2 : Int)) (by simp)]
        simp [List.getLast?_cons_cons]
      · simp [evictRev, if_neg hc]

theorem evictRev_ne_nil (cap : Int) (l : List (String × Nat)) (h : l ≠ []) :
    (evictRev cap l).2.1 ≠ [] := by
  have h2 := evictRev_getLast cap l h
  intro he
  rw [he] at h2
  have h3 := List.getLast?_isSome.mpr h
  rw [← h2] at h3
  simp at h3

theorem capAcc_set (C : Int) (c : Cache) (key : String) (resp : List Nat)
    (h : CapAcc C c) : CapAcc C (Cache.Set c key resp).1 := by
  obtain ⟨hcap, _⟩ := h
  have core :
      ∀ items1 : List (String × Nat), ∀ cap1 : Int,
        items1 ≠ [] → cap1 = C - sizeSum items1 →
        CapAcc C ⟨(evictRev cap1 items1.reverse).1, (evictRev cap1 items1.reverse).2.1.reverse⟩ := by
    intro items1 cap1 hne hc1
    have hbal := evictRev_cap cap1 items1.reverse
    rw [sizeSum_reverse] at hbal
    have hstop := evictRev_stop cap1 items1.reverse
    have hnn := evictRev_ne_nil cap1 items1.reverse (by simpa using hne)
    constructor
    · dsimp only
      simp only [sizeSum_reverse]
      omega
    · rcases hstop with hge | hle
      · left
        dsimp only
        simp only [sizeSum_reverse]
        omega
      · have hlen : (evictRev cap1 items1.reverse).2.1.length = 1 := by
          have := List.length_pos.mpr hnn
          omega
        by_cases hs : sizeSum (evictRev cap1 items1.reverse).2.1.reverse ≤ C
        · exact Or.inl hs
        · right
          refine ⟨by dsimp only; simpa using hlen, ?_⟩
          dsimp only
          omega
  unfold Cache.Set
  cases hfind : findItem c.items key with
  | some old =>
    simp only [hfind]
    refine core _ _ (by simp) ?_
    rw [sizeSum_cons, sizeSum_eraseKey c.items key old hfind]
    omega
  | none =>
    simp only [hfind]
    refine core _ _ (by simp) ?_
    rw [sizeSum_cons]
    omega

theorem capAcc_get (C : Int) (c : Cache) (store : String → Option (List Nat)) (key : String)
    (h : CapAcc C c) : CapAcc C (Cache.Get c store key).2.1 := by
  obtain ⟨hcap, hinv⟩ := h
  unfold Cache.Get
  cases hfind : findItem c.items key with
  | none => exact ⟨hcap, hinv⟩
  | some sz =>
    simp only [hfind]
    have hsum := sizeSum_eraseKey c.items key sz hfind
    have hlen := length_eraseKey c.items key sz hfind
    constructor
    · dsimp only
      rw [sizeSum_cons]
      omega
    · rcases hinv with hle | ⟨h1, hgt⟩
      · left
        dsimp only
        rw [sizeSum_cons]
        omega
      · right
        constructor
        · dsimp only
          simp only [List.length_cons]
          omega
        · dsimp only
          rw [sizeSum_cons]
          omega

theorem capAcc_del (C : Int) (hC : 0 < C) (c : Cache) (key : String)
    (h : CapAcc C c) : CapAcc C (Cache.Delete c key).1 := by
  obtain ⟨hcap, hinv⟩ := h
  unfold Cache.Delete
  cases hfind : findItem c.items key with
  | none => exact ⟨hcap, hinv⟩
  | some sz =>
    simp only [hfind]
    have hsum := sizeSum_eraseKey c.items key sz hfind
    have hlen := length_eraseKey c.items key sz hfind
    constructor
    · dsimp only
      omega
    · left
      dsimp only
      rcases hinv with hle | ⟨h1, _⟩
      · omega
      · have h0 : (eraseKey c.items key).length = 0 := by omega
        have he : eraseKey c.items key = [] := List.length_eq_zero.mp h0
        have hz : sizeSum (eraseKey c.items key) = 0 := by rw [he]; rfl
        omega

theorem capAcc_run (C : Int) (hC : 0 < C) (ops : List LruOp) :
    ∀ c : Cache, CapAcc C c → CapAcc C (ops.foldl applyOp c) := by
  induction ops with
  | nil => intro c h; exact h
  | cons op rest ih =>
    intro c h
    apply ih
    cases op with
    | set k v => exact capAcc_set C c k v h
    | get k => exact capAcc_get C c (fun _ => none) k h
    | del k => exact capAcc_del C hC c k h

/-- C1: for every capacity C > 0 and every finite sequence of Set, Get and
Delete operations on the LRU layer starting from the empty cache, after
each completed operation (in particular after the whole sequence, each of
whose prefixes is itself such a sequence) the sum of the tracked sizes of
all index entries is at most C, except when the index holds exactly one
entry whose own size exceeds C. -/
theorem C1_lru_capacity_invariant (C : Int) (hC : 0 < C) (ops : List LruOp) :
    CapInv C (runOps C ops) := by
  have hinit : CapAcc C (Cache.New C) := by
    constructor
    · simp [Cache.New, sizeSum]
    · left
      simp [Cache.New, sizeSum]
      omega
  exact (capAcc_run C hC ops (Cache.New C) hinit).2

/-- Witness for C1 at capacity 10 and a concrete operation sequence that
exercises refresh, eviction, oversized insert and delete. -/
theorem C1_lru_capacity_invariant_witness :
    (0 : Int) < 10 ∧
      CapInv 10 (runOps 10
        [LruOp.set "k1" [0, 0, 0, 0], LruOp.set "k2" [0, 0, 0, 0],
         LruOp.get "k1", LruOp.set "k3" [0, 0, 0, 0, 0, 0],
         LruOp.set "big" (List.replicate 25 7), LruOp.del "big"]) :=
  ⟨by decide, C1_lru_capacity_invariant 10 (by decide)
    [LruOp.set "k1" [0, 0, 0, 0], LruOp.set "k2" [0, 0, 0, 0],
     LruOp.get "k1", LruOp.set "k3" [0, 0, 0, 0, 0, 0],
     LruOp.set "big" (List.replicate 25 7), LruOp.del "big"]⟩

/-- C2: the concrete eviction trace at capacity 10: Set key1 (4 bytes)
leaves index [key1]; Set key2 (4 bytes) leaves [key2, key1] most-recent
first; Set key3 (4 bytes) evicts key1 leaving [key3, key2]; Set key4
(6 bytes) evicts key2 leaving [key4, key3]. -/
theorem C2_concrete_eviction_trace :
    (runOps 10 [LruOp.set "key1" [1, 1, 1, 1]]).items = [("key1", 4)] ∧
    (runOps 10 [LruOp.set "key1" [1, 1, 1, 1], LruOp.set "key2" [2, 2, 2, 2]]).items
      = [("key2", 4), ("key1", 4)] ∧
    (runOps 10 [LruOp.set "key1" [1, 1, 1, 1], LruOp.set "key2" [2, 2, 2, 2],
      LruOp.set "key3" [3, 3, 3, 3]]).items = [("key3", 4), ("key2", 4)] ∧
    (Cache.Set (runOps 10 [LruOp.set "key1" [1, 1, 1, 1], LruOp.set "key2" [2, 2, 2, 2]])
      "key3" [3, 3, 3, 3]).2 = [StoreOp.del "key1", StoreOp.set "key3" [3, 3, 3, 3]] ∧
    (runOps 10 [LruOp.set "key1" [1, 1, 1, 1], LruOp.set "key2" [2, 2, 2, 2],
      LruOp.set "key3" [3, 3, 3, 3], LruOp.set "key4" [4, 4, 4, 4, 4, 4]]).items
      = [("key4", 6), ("key3", 4)] ∧
    (Cache.Set (runOps 10 [LruOp.set "key1" [1, 1, 1, 1], LruOp.set "key2" [2, 2, 2, 2],
      LruOp.set "key3" [3, 3, 3, 3]]) "key4" [4, 4, 4, 4, 4, 4]).2
      = [StoreOp.del "key2", StoreOp.set "key4" [4, 4, 4, 4, 4, 4]] := by
  decide

theorem head?_of_length_pos {α : Type} (l : List α) (a : α) (h : l.head? = some a) :
    1 ≤ l.length := by
  cases l with
  | nil => simp at h
  | cons x t => simp

/-- C3: Cache.Set never evicts the entry it just inserted or refreshed:
for every LRU state and every Set, the written key ends up present at the
most-recent position with its new size, and the index is nonempty — in
particular an oversized Set still completes with its key present, so no
reachable state refuses all insertions. -/
theorem C3_single_item_exemption (c : Cache) (key : String) (resp : List Nat) :
    ((Cache.Set c key resp).1.items.head? = some (key, resp.length)) ∧
      1 ≤ (Cache.Set c key resp).1.items.length := by
  have core :
      ∀ t : List (String × Nat), ∀ cap1 : Int,
        ((evictRev cap1 ((key, resp.length) :: t).reverse).2.1.reverse.head?
          = some (key, resp.length)) := by
    intro t cap1
    rw [List.head?_reverse]
    rw [evictRev_getLast cap1 ((key, resp.length) :: t).reverse (by simp)]
    rw [List.getLast?_reverse]
    rfl
  constructor
  · unfold Cache.Set
    cases hfind : findItem c.items key with
    | some old => simp only [hfind]; exact core _ _
    | none => simp only [hfind]; exact core _ _
  · exact head?_of_length_pos _ _ (by
      unfold Cache.Set
      cases hfind : findItem c.items key with
      | some old => simp only [hfind]; exact core _ _
      | none => simp only [hfind]; exact core _ _)

/-- C10: Cache.Get on a key absent from the index returns a miss at once,
leaves the state untouched and performs no backing-store operation, even
when the backing store does hold a value for that key. -/
theorem C10_get_miss_no_store_read (c : Cache) (store : String → Option (List Nat))
    (key : String) (h : findItem c.items key = none) :
    Cache.Get c store key = (none, c, []) := by
  unfold Cache.Get
  rw [h]

/-- Witness for C10: the backing store holds bytes for "k", the index does
not, and Get reports a miss with no state change and no store access. -/
theorem C10_get_miss_no_store_read_witness :
    (findItem (Cache.New 5).items "k" = none) ∧
      ((fun s => if s = "k" then some [9, 9] else none) "k" = some [9, 9]) ∧
      Cache.Get (Cache.New 5) (fun s => if s = "k" then some [9, 9] else none) "k"
        = (none, Cache.New 5, []) :=
  ⟨by decide, by decide,
    C10_get_miss_no_store_read (Cache.New 5)
      (fun s => if s = "k" then some [9, 9] else none) "k" (by decide)⟩

/- ===== Miniature of the Go net/url machinery used by the proxy and the
client.  Strings are processed as character lists; only ASCII inputs are in
modelled range (Go escapes each UTF-8 byte separately).  Out of modelled
range and dropped: userinfo validation, IPv6 zone identifiers, ForceQuery,
OmitHost.  Everything else follows the Go sources of url.Parse,
url.ParseQuery, url.QueryEscape and URL.String. ===== -/

/-- ASCII control characters (stringContainsCTLByte). -/
def isCtl (c : Char) : Bool := c.toNat < 0x20 || c.toNat == 0x7f

def isUpperCh (c : Char) : Bool := 'A' ≤ c && c ≤ 'Z'

def isLowerCh (c : Char) : Bool := 'a' ≤ c && c ≤ 'z'

def isAlphaCh (c : Char) : Bool := isUpperCh c || isLowerCh c

def isDigitCh (c : Char) : Bool := '0' ≤ c && c ≤ '9'

def isHexCh (c : Char) : Bool :=
  isDigitCh c || ('a' ≤ c && c ≤ 'f') || ('A' ≤ c && c ≤ 'F')

def hexVal (c : Char) : Nat :=
  if isDigitCh c then c.toNat - 48
  else if 'a' ≤ c && c ≤ 'f' then c.toNat - 87
  else c.toNat - 55

def toLowerCh (c : Char) : Char :=
  if isUpperCh c then Char.ofNat (c.toNat + 32) else c

/-- Uppercase hex digit of a value below 16 (Go upperhex table). -/
def hexDigitUpper (n : Nat) : Char :=
  if n < 10 then Char.ofNat (48 + n) else Char.ofNat (55 + n)

/-- The escaping contexts of Go net/url that differ in unescape behavior. -/
inductive EncMode where
  | path
  | host
  | queryComponent
  deriving DecidableEq, Repr

/-- Go url.unescape: every % must carry two hex digits; in host mode an
escape below %80 other than %25 is rejected; '+' decodes to space only in
query components. -/
def unescapeCL : List Char → EncMode → Option (List Char)
  | '%' :: a :: b :: rest, m =>
    if isHexCh a && isHexCh b then
      if m == EncMode.host && hexVal a < 8 && !(a == '2' && b == '5') then none
      else (unescapeCL rest m).map (fun r => Char.ofNat (16 * hexVal a + hexVal b) :: r)
    else none
  | '%' :: _, _ => none
  | '+' :: rest, m =>
    (unescapeCL rest m).map
      (fun r => (if m == EncMode.queryComponent then ' ' else '+') :: r)
  | c :: rest, m => (unescapeCL rest m).map (fun r => c :: r)
  | [], _ => some []

/-- Go shouldEscape in the query-component mode: only ASCII alphanumerics
and -_.~ stay unescaped. -/
def shouldEscapeQuery (c : Char) : Bool :=
  !(isAlphaCh c || isDigitCh c || c == '-' || c == '_' || c == '.' || c == '~')

/-- Go url.QueryEscape: space becomes '+', unreserved bytes stay, the rest
become %XX with uppercase hex. -/
def escapeQueryCL : List Char → List Char
  | [] => []
  | c :: rest =>
    if c == ' ' then '+' :: escapeQueryCL rest
    else if shouldEscapeQuery c then
      '%' :: hexDigitUpper (c.toNat / 16) :: hexDigitUpper (c.toNat % 16) :: escapeQueryCL rest
    else c :: escapeQueryCL rest

def queryEscape (s : String) : String := String.mk (escapeQueryCL s.data)

/-- Go shouldEscape in the path mode: alphanumerics, -_.~ and the
sub-delimiters kept in paths; '?' and everything else is escaped. -/
def shouldEscapePath (c : Char) : Bool :=
  if isAlphaCh c || isDigitCh c || c == '-' || c == '_' || c == '.' || c == '~' then false
  else if c == '$' || c == '&' || c == '+' || c == ',' || c == '/' || c == ':' ||
      c == ';' || c == '=' || c == '@' then false
  else true

def escapePathCL : List Char → List Char
  | [] => []
  | c :: rest =>
    if shouldEscapePath c then
      '%' :: hexDigitUpper (c.toNat / 16) :: hexDigitUpper (c.toNat % 16) :: escapePathCL rest
    else c :: escapePathCL rest

/-- Go shouldEscape in the host mode (used when printing a URL). -/
def shouldEscapeHost (c : Char) : Bool :=
  if isAlphaCh c || isDigitCh c || c == '-' || c == '_' || c == '.' || c == '~' then false
  else if c == '!' || c == '$' || c == '&' || c == Char.ofNat 39 || c == '(' || c == ')' ||
      c == '*' || c == '+' || c == ',' || c == ';' || c == '=' || c == ':' ||
      c == '[' || c == ']' || c == '<' || c == '>' || c == '"' then false
  else true

def escapeHostCL : List Char → List Char
  | [] => []
  | c :: rest =>
    if shouldEscapeHost c then
      '%' :: hexDigitUpper (c.toNat / 16) :: hexDigitUpper (c.toNat % 16) :: escapeHostCL rest
    else c :: escapeHostCL rest

/-- Split at the first occurrence of `sep`: (before, some after) when
found, (l, none) otherwise (the strings.Cut pattern). -/
def splitFirst (sep : Char) : List Char → List Char × Option (List Char)
  | [] => ([], none)
  | c :: rest =>
    if c == sep then ([], some rest)
    else
      let r := splitFirst sep rest
      (c :: r.1, r.2)

/-- Split at the last occurrence of `sep` (the strings.LastIndex pattern). -/
def lastSplit (sep : Char) (l : List Char) : Option (List Char × List Char) :=
  match splitFirst sep l.reverse with
  | (_, none) => none
  | (afterRev, some beforeRev) => some (beforeRev.reverse, afterRev.reverse)

/-- One key=value segment of url.ParseQuery: cut at the first '=', decode
both sides in query mode, drop the pair on any decode error, on an empty
segment, or on a semicolon separator. -/
def parseSeg (seg : List Char) : Option (String × String) :=
  if seg.isEmpty then none
  else if seg.contains ';' then none
  else
    let kv := splitFirst '=' seg
    let vl := match kv.2 with | some v => v | none => []
    match unescapeCL kv.1 EncMode.queryComponent, unescapeCL vl EncMode.queryComponent with
    | some k, some v => some (String.mk k, String.mk v)
    | _, _ => none

/-- url.ParseQuery with errors discarded, as req.URL.Query() does. -/
def parseQueryPairs (rawQuery : String) : List (String × String) :=
  (rawQuery.data.splitOn '&').filterMap parseSeg

/-- req.URL.Query().Get(key): first value if any, otherwise "". -/
def queryGet (rawQuery : String) (key : String) : String :=
  match (parseQueryPairs rawQuery).find? (fun p => p.1 == key) with
  | some p => p.2
  | none => ""

/-- Result of Go getScheme: no scheme (rest is the whole input), the
"missing protocol scheme" error, or a scheme plus remainder. -/
inductive SchemeRes where
  | noScheme
  | schemeErr
  | ok (scheme : List Char) (rest : List Char)
  deriving DecidableEq, Repr

/-- Go getScheme, scanning left to right: letters may continue a scheme,
digits and +-. may continue but not start one, ':' ends it (an error at
position zero), anything else means the input has no scheme. -/
def getSchemeGo : List Char → List Char → Bool → SchemeRes
  | [], _, _ => .noScheme
  | c :: rest, acc, first =>
    if isAlphaCh c then getSchemeGo rest (acc ++ [c]) false
    else if isDigitCh c || c == '+' || c == '-' || c == '.' then
      if first then .noScheme else getSchemeGo rest (acc ++ [c]) false
    else if c == ':' then
      if first then .schemeErr else .ok acc rest
    else .noScheme

def getScheme (l : List Char) : SchemeRes := getSchemeGo l [] true

/-- The components of a parsed Go URL that this development uses
(User, ForceQuery, OmitHost, RawPath and Fragment are out of modelled
range; `path` is stored decoded, as Go does). -/
structure GoURL where
  scheme : String
  host : String
  path : String
  opq : String
  rawQuery : String
  deriving DecidableEq, Repr, Inhabited

/-- Go validOptionalPort: empty, or ':' followed by digits only. -/
def validOptionalPort : List Char → Bool
  | [] => true
  | ':' :: rest => rest.all isDigitCh
  | _ => false

/-- Go parseHost: bracketed hosts keep their raw text after the closing
bracket's port is checked (zone handling out of modelled range); plain
hosts have the text after the last ':' checked as a port and are then
unescaped in host mode (which rejects escapes below %80 other than %25). -/
def parseHostCL (host : List Char) : Option (List Char) :=
  if host.head? == some '[' then
    match lastSplit ']' host with
    | none => none
    | some (_, after) => if validOptionalPort after then some host else none
  else
    let portOk :=
      match lastSplit ':' host with
      | some (_, port) => validOptionalPort (':' :: port)
      | none => true
    if portOk then unescapeCL host EncMode.host else none

/-- Go parseAuthority: the host is the text after the last '@' (userinfo
validation out of modelled range). -/
def parseAuthority (auth : List Char) : Option (List Char) :=
  match lastSplit '@' auth with
  | none => parseHostCL auth
  | some (_, hostPart) => parseHostCL hostPart

/-- Authority split of Go parse: text up to the first '/' is the
authority, the '/' and everything after it is the path. -/
def breakAtSlash (l : List Char) : List Char × List Char :=
  match splitFirst '/' l with
  | (before, none) => (before, [])
  | (before, some after) => (before, '/' :: after)

/-- The body of Go parse after scheme extraction (viaRequest = false):
cut the query at the first '?', handle the opaque and the
first-segment-colon cases when the remainder does not start with '/',
otherwise parse //authority and decode the path. -/
def urlParseAfterScheme (scheme : List Char) (rest0 : List Char) : Option GoURL :=
  let qs := splitFirst '?' rest0
  let rest1 := qs.1
  let rawQuery := match qs.2 with | some q => q | none => []
  if rest1.head? != some '/' then
    if !scheme.isEmpty then
      some ⟨String.mk scheme, "", "", String.mk rest1, String.mk rawQuery⟩
    else if ((splitFirst '/' rest1).1).contains ':' then none
    else
      match unescapeCL rest1 EncMode.path with
      | none => none
      | some p => some ⟨"", "", String.mk p, "", String.mk rawQuery⟩
  else
    match rest1 with
    | '/' :: '/' :: after =>
      if scheme.isEmpty && after.head? == some '/' then
        match unescapeCL rest1 EncMode.path with
        | none => none
        | some p => some ⟨"", "", String.mk p, "", String.mk rawQuery⟩
      else
        let ar := breakAtSlash after
        match parseAuthority ar.1 with
        | none => none
        | some host =>
          match unescapeCL ar.2 EncMode.path with
          | none => none
          | some p =>
            some ⟨String.mk scheme, String.mk host, String.mk p, "", String.mk rawQuery⟩
    | _ =>
      match unescapeCL rest1 EncMode.path with
      | none => none
      | some p => some ⟨String.mk scheme, "", String.mk p, "", String.mk rawQuery⟩

/-- Go parse on the part before the fragment: reject control characters,
special-case "*", extract the scheme (lowercased) and continue. -/
def urlParseMain (l : List Char) : Option GoURL :=
  if l.any isCtl then none
  else if l == ['*'] then some ⟨"", "", "*", "", ""⟩
  else
    match getScheme l with
    | .schemeErr => none
    | .noScheme => urlParseAfterScheme [] l
    | .ok sch rest => urlParseAfterScheme (sch.map toLowerCh) rest

/-- Go url.Parse: cut the fragment at the first '#', parse the base, and
check the fragment's escapes (the fragment itself is then dropped from
the model). -/
def urlParse (s : String) : Option GoURL :=
  match splitFirst '#' s.data with
  | (base, none) => urlParseMain base
  | (base, some frag) =>
    match urlParseMain base with
    | none => none
    | some u => if (unescapeCL frag EncMode.path).isSome then some u else none

/-- Go URL.String restricted to the modelled components: scheme, opaque
or //host + escaped path, then the raw query. -/
def urlString (u : GoURL) : String :=
  let b1 := if u.scheme ≠ "" then u.scheme ++ ":" else ""
  let b2 :=
    if u.opq ≠ "" then b1 ++ u.opq
    else
      let withHost :=
        if u.scheme ≠ "" ∨ u.host ≠ "" then
          (if u.host ≠ "" ∨ u.path ≠ "" then b1 ++ "//" else b1) ++
            String.mk (escapeHostCL u.host.data)
        else b1
      let p := String.mk (escapePathCL u.path.data)
      let withSlash :=
        if p ≠ "" ∧ p.data.head? ≠ some '/' ∧ u.host ≠ "" then withHost ++ "/" ++ p
        else if withHost = "" ∧ ((splitFirst '/' p.data).1).contains ':' then
          withHost ++ "./" ++ p
        else withHost ++ p
      withSlash
  if u.rawQuery ≠ "" then b2 ++ "?" ++ u.rawQuery else b2

/- ===== Boundary proxy (part_000): proxy.ServeHTTP validates the path
and the q parameter, then hands the request to the ReverseProxy whose
director retargets it at the parsed origin. ===== -/

/-- The part of an inbound http.Request that proxy.ServeHTTP reads. -/
structure InboundReq where
  path : String
  rawQuery : String
  deriving DecidableEq, Repr

/-- Control flow of proxy.ServeHTTP (part_000 lines 60-80): the request is
either rejected before the ReverseProxy is ever invoked, or forwarded with
the parsed origin URL. -/
inductive Outcome where
  | rejected
  | forwarded (origin : GoURL)
  deriving DecidableEq, Repr

def serveOutcome (ppath : String) (req : InboundReq) : Outcome :=
  if req.path ≠ ppath then .rejected
  else
    let q := queryGet req.rawQuery "q"
    if q = "" then .rejected
    else
      match urlParse q with
      | none => .rejected
      | some origin => .forwarded origin

/-- Observable result of handling one inbound request: status, body, and
the cache keys looked up / origin URLs fetched while producing it. -/
structure BoundaryResult where
  status : Nat
  body : List Nat
  cacheLookups : List String
  originFetches : List String
  deriving DecidableEq, Repr

/-- The rejected branches write header 502 and return: empty body, no
cache lookup, no origin fetch. -/
def reject502 : BoundaryResult := ⟨502, [], [], []⟩

/-- proxy.ServeHTTP: reject, or delegate to the ReverseProxy/httpcache
stage `rp` with the parsed origin (the director's context value). -/
def serveHTTP (rp : GoURL → InboundReq → BoundaryResult) (ppath : String)
    (req : InboundReq) : BoundaryResult :=
  match serveOutcome ppath req with
  | .rejected => reject502
  | .forwarded origin => rp origin req

/-- C4: a path mismatch, an absent/empty q (as the code observes it:
Query().Get("q") = ""), or a q that url.Parse rejects, makes the proxy
answer 502 with an empty body, performing no cache lookup and no origin
fetch, whatever the downstream stage would do. -/
theorem C4_boundary_rejection (rp : GoURL → InboundReq → BoundaryResult)
    (ppath : String) (req : InboundReq)
    (h : req.path ≠ ppath ∨ queryGet req.rawQuery "q" = "" ∨
      urlParse (queryGet req.rawQuery "q") = none) :
    serveOutcome ppath req = Outcome.rejected ∧
      serveHTTP rp ppath req = ⟨502, [], [], []⟩ := by
  have hout : serveOutcome ppath req = Outcome.rejected := by
    unfold serveOutcome
    rcases h with hp | hq | hu
    · rw [if_pos hp]
    · by_cases hp : req.path ≠ ppath
      · rw [if_pos hp]
      · rw [if_neg hp]
        simp [hq]
    · by_cases hp : req.path ≠ ppath
      · rw [if_pos hp]
      · rw [if_neg hp]
        by_cases hq : queryGet req.rawQuery "q" = ""
        · simp [hq]
        · simp only [if_neg hq, hu]
  exact ⟨hout, by unfold serveHTTP; rw [hout]; rfl⟩

/-- Witness for C4 at the three rejection conditions: wrong path, empty q,
and a q whose decoded value ":" fails url.Parse. -/
theorem C4_boundary_rejection_witness :
    ((⟨"/other", ""⟩ : InboundReq).path ≠ "/proxy" ∨
        queryGet (⟨"/other", ""⟩ : InboundReq).rawQuery "q" = "" ∨
        urlParse (queryGet (⟨"/other", ""⟩ : InboundReq).rawQuery "q") = none) ∧
      serveHTTP (fun _ _ => ⟨200, [1], ["x"], ["y"]⟩) "/proxy" ⟨"/other", ""⟩
        = ⟨502, [], [], []⟩ ∧
      serveHTTP (fun _ _ => ⟨200, [1], ["x"], ["y"]⟩) "/proxy" ⟨"/proxy", "q="⟩
        = ⟨502, [], [], []⟩ ∧
      serveHTTP (fun _ _ => ⟨200, [1], ["x"], ["y"]⟩) "/proxy" ⟨"/proxy", "q=%3A"⟩
        = ⟨502, [], [], []⟩ :=
  ⟨Or.inl (by decide),
    (C4_boundary_rejection (fun _ _ => ⟨200, [1], ["x"], ["y"]⟩) "/proxy" ⟨"/other", ""⟩
      (Or.inl (by decide))).2,
    (C4_boundary_rejection (fun _ _ => ⟨200, [1], ["x"], ["y"]⟩) "/proxy" ⟨"/proxy", "q="⟩
      (Or.inr (Or.inl (by decide)))).2,
    (C4_boundary_rejection (fun _ _ => ⟨200, [1], ["x"], ["y"]⟩) "/proxy" ⟨"/proxy", "q=%3A"⟩
      (Or.inr (Or.inr (by decide)))).2⟩

/-- Counterexample to C5: "foo" is not an absolute URL (it has no scheme
and no host), yet the proxy forwards the request carrying q=foo to the
reverse-proxy stage instead of rejecting it, because url.Parse accepts
relative URLs. -/
theorem C5_counterexample :
    queryGet "q=foo" "q" = "foo" ∧ ("foo" : String) ≠ "" ∧
      urlParse "foo" = some ⟨"", "", "foo", "", ""⟩ ∧
      (⟨"", "", "foo", "", ""⟩ : GoURL).scheme = "" ∧
      (⟨"", "", "foo", "", ""⟩ : GoURL).host = "" ∧
      serveOutcome "/proxy" ⟨"/proxy", "q=foo"⟩
        = Outcome.forwarded ⟨"", "", "foo", "", ""⟩ ∧
      serveOutcome "/proxy" ⟨"/proxy", "q=foo"⟩ ≠ Outcome.rejected := by
  decide

/-- C5 as amended: on the configured path with a non-empty q, the proxy
rejects exactly when url.Parse fails on q (control characters, malformed
escapes, a colon-shaped scheme error); a q that parses — even as a
relative, non-absolute URL — is forwarded, not rejected. -/
theorem C5_amended_reject_iff_parse_fails (ppath : String) (req : InboundReq)
    (h1 : req.path = ppath) (h2 : queryGet req.rawQuery "q" ≠ "") :
    serveOutcome ppath req = Outcome.rejected ↔
      urlParse (queryGet req.rawQuery "q") = none := by
  unfold serveOutcome
  rw [if_neg (by simp [h1])]
  simp only [if_neg h2]
  cases hu : urlParse (queryGet req.rawQuery "q") with
  | none => simp
  | some origin => simp

/-- Witness for the amended C5 on both sides of the iff: q=%3A (decoding
to ":") is rejected, q=foo is forwarded. -/
theorem C5_amended_reject_iff_parse_fails_witness :
    ((⟨"/proxy", "q=%3A"⟩ : InboundReq).path = "/proxy" ∧
        queryGet "q=%3A" "q" ≠ "" ∧
        (serveOutcome "/proxy" ⟨"/proxy", "q=%3A"⟩ = Outcome.rejected ↔
          urlParse (queryGet "q=%3A" "q") = none)) ∧
      ((⟨"/proxy", "q=foo"⟩ : InboundReq).path = "/proxy" ∧
        queryGet "q=foo" "q" ≠ "" ∧
        (serveOutcome "/proxy" ⟨"/proxy", "q=foo"⟩ = Outcome.rejected ↔
          urlParse (queryGet "q=foo" "q") = none)) :=
  ⟨⟨by decide, by decide,
      C5_amended_reject_iff_parse_fails "/proxy" ⟨"/proxy", "q=%3A"⟩ (by decide) (by decide)⟩,
    ⟨by decide, by decide,
      C5_amended_reject_iff_parse_fails "/proxy" ⟨"/proxy", "q=foo"⟩ (by decide) (by decide)⟩⟩

/- ===== Routing client and peer (client.go, peer.go).  The
aliasing-relevant parts of *http.Request (the *url.URL and the header
map) live in an explicit heap so that clone isolation is a real statement:
allocations take fresh cells and the caller's cells must be proved
untouched. ===== -/

/-- The part of an *http.Request the router reads and writes: references
into the heap for URL and header map, plus the Host string field. -/
structure HttpRequest where
  urlRef : Nat
  host : String
  headerRef : Nat
  deriving DecidableEq, Repr

/-- Heap of URL cells and header-map cells; `next` is the allocator. -/
structure Heap where
  urls : List (Nat × GoURL)
  headers : List (Nat × List (String × List String))
  next : Nat
  deriving DecidableEq, Repr

def Heap.lookupUrl (h : Heap) (ref : Nat) : Option GoURL :=
  (h.urls.find? (fun p => p.1 == ref)).map (fun p => p.2)

def Heap.lookupHeader (h : Heap) (ref : Nat) : Option (List (String × List String)) :=
  (h.headers.find? (fun p => p.1 == ref)).map (fun p => p.2)

/-- Allocated cells live below the allocator mark. -/
def Heap.WF (h : Heap) : Prop :=
  (∀ p ∈ h.urls, p.1 < h.next) ∧ (∀ p ∈ h.headers, p.1 < h.next)

def allocUrl (h : Heap) (u : GoURL) : Heap × Nat :=
  (⟨(h.next, u) :: h.urls, h.headers, h.next + 1⟩, h.next)

def allocHeader (h : Heap) (hd : List (String × List String)) : Heap × Nat :=
  (⟨h.urls, (h.next, hd) :: h.headers, h.next + 1⟩, h.next)

/-- clone (client.go 141-149): shallow struct copy (all fields, including
the URL reference and Host), then a freshly allocated header map whose
entries and value slices are copied one by one. -/
def clone (h : Heap) (r : HttpRequest) : Heap × HttpRequest :=
  let hd := (h.lookupHeader r.headerRef).getD []
  let an := allocHeader h hd
  (an.1, { r with headerRef := an.2 })

/-- Client.peerHandlerURL (client.go 89-96): parse the peer base URL, set
its Path to the boundary path and its RawQuery to q= plus the escaped
origin.  The ignored parse error (a nil *url.URL dereference in Go) is
modelled as failure. -/
def peerHandlerURL (path : String) (peer : String) (origin : String) : Option GoURL :=
  (urlParse peer).map
    (fun u => { u with path := path, rawQuery := "q=" ++ queryEscape origin })

/-- Client.roundTripTo (client.go 79-87): build the rewritten URL from
req.URL.String() (a fresh heap cell, as url.Parse allocates), clone the
request, point the clone at it, rewrite the clone's Host, and hand the
clone to the outbound transport.  Returns the final heap and the
dispatched clone. -/
def roundTripTo (path : String) (peer : String) (h : Heap) (r : HttpRequest) :
    Option (Heap × HttpRequest) :=
  let origin := urlString ((h.lookupUrl r.urlRef).getD default)
  match peerHandlerURL path peer origin with
  | none => none
  | some q =>
    let aq := allocUrl h q
    let cl := clone aq.1 r
    some (cl.1, { cl.2 with urlRef := aq.2, host := q.host })

/-- Modelled from the spec: the consistenthash package is absent from the
repository snapshot (only its callers are present).  Per spec section 4.1
the ring keeps, for each peer, `replicas` virtual-node entries hashing the
peer identity combined with a per-replica discriminator, sorted ascending
by hash; Get hashes the key, takes the first entry with hash at least the
key hash, wraps to the smallest entry, and yields "" on an empty ring. -/
structure HashRing where
  replicas : Nat
  hashFn : String → Nat
  entries : List (Nat × String)

def insertEntry (e : Nat × String) : List (Nat × String) → List (Nat × String)
  | [] => [e]
  | x :: rest => if e.1 ≤ x.1 then e :: x :: rest else x :: insertEntry e rest

def sortEntries : List (Nat × String) → List (Nat × String)
  | [] => []
  | x :: rest => insertEntry x (sortEntries rest)

/-- Modelled from the spec: the virtual-node entries of a membership —
`replicas` hashes per peer, each of the peer identity prefixed by the
replica number. -/
def ringEntries (replicas : Nat) (hashFn : String → Nat) (peers : List String) :
    List (Nat × String) :=
  sortEntries
    ((peers.map (fun p =>
      (List.range replicas).map (fun i => (hashFn (toString i ++ p), p)))).flatten)

/-- Modelled from the spec: ring construction (virtual nodes, ascending
hash order); Add replaces the membership wholesale. -/
def HashRing.Add (m : HashRing) (peers : List String) : HashRing :=
  { m with entries := ringEntries m.replicas m.hashFn peers }

/-- Modelled from the spec: ring lookup with wrap-around. -/
def HashRing.Get (m : HashRing) (key : String) : String :=
  match m.entries with
  | [] => ""
  | e0 :: _ =>
    let h := m.hashFn key
    match m.entries.find? (fun e => h ≤ e.1) with
    | some e => e.2
    | none => e0.2

/-- The routing Client (client.go): boundary path, ring parameters and the
current ring.  The outbound transport is the environment receiving the
dispatched clone, so it carries no state here. -/
structure Client where
  path : String
  replicas : Nat
  hashFn : String → Nat
  peers : List String
  hashMap : HashRing

/-- Client.SetPool (client.go 48-55): a brand-new ring built from the
replica count and hash function over the given peers. -/
def Client.SetPool (c : Client) (peers : List String) : Client :=
  { c with peers := peers,
           hashMap := HashRing.Add ⟨c.replicas, c.hashFn, []⟩ peers }

/-- Client.choosePeer (client.go 72-77). -/
def Client.choosePeer (c : Client) (url : String) : String := c.hashMap.Get url

/-- Client.RoundTrip (client.go 67-70): resolve the owner of
req.URL.String() and forward through roundTripTo. -/
def Client.RoundTrip (c : Client) (h : Heap) (r : HttpRequest) :
    String × Option (Heap × HttpRequest) :=
  let peer := c.choosePeer (urlString ((h.lookupUrl r.urlRef).getD default))
  (peer, roundTripTo c.path peer h r)

/-- The Peer (peer.go): its Client, plus its own identity. -/
structure Peer where
  client : Client
  self : String

/-- Outcome of Peer.RoundTrip: dispatched through the local proxy
transport (heap and request passed through untouched), or forwarded to
the owning peer through the Client path. -/
inductive PeerDispatch where
  | localTransport (h : Heap) (r : HttpRequest)
  | remote (peer : String) (result : Option (Heap × HttpRequest))

/-- Peer.RoundTrip (peer.go 84-92). -/
def Peer.RoundTrip (p : Peer) (h : Heap) (r : HttpRequest) : PeerDispatch :=
  let peer := p.client.choosePeer (urlString ((h.lookupUrl r.urlRef).getD default))
  if peer = p.self then .localTransport h r
  else .remote peer (roundTripTo p.client.path peer h r)

theorem assocFind_cons_ne {α : Type} (n ref : Nat) (v : α) (l : List (Nat × α))
    (hne : n ≠ ref) :
    ((n, v) :: l).find? (fun p => p.1 == ref) = l.find? (fun p => p.1 == ref) := by
  have hb : (((n, v) : Nat × α).1 == ref) = false := by simp [hne]
  simp [List.find?_cons, hb]

theorem lookupUrl_lt_next (h : Heap) (hwf : Heap.WF h) (ref : Nat) (u : GoURL)
    (hu : h.lookupUrl ref = some u) : ref < h.next := by
  unfold Heap.lookupUrl at hu
  cases hf : h.urls.find? (fun p => p.1 == ref) with
  | none => rw [hf] at hu; simp at hu
  | some p =>
    have hmem := List.mem_of_find?_eq_some hf
    have hkey := List.find?_some hf
    have hp1 : p.1 = ref := by simpa using hkey
    have := hwf.1 p hmem
    omega

theorem lookupHeader_lt_next (h : Heap) (hwf : Heap.WF h) (ref : Nat)
    (hd : List (String × List String)) (hh : h.lookupHeader ref = some hd) :
    ref < h.next := by
  unfold Heap.lookupHeader at hh
  cases hf : h.headers.find? (fun p => p.1 == ref) with
  | none => rw [hf] at hh; simp at hh
  | some p =>
    have hmem := List.mem_of_find?_eq_some hf
    have hkey := List.find?_some hf
    have hp1 : p.1 = ref := by simpa using hkey
    have := hwf.2 p hmem
    omega

theorem lookupUrl_clone (h : Heap) (r : HttpRequest) (ref : Nat) :
    (clone h r).1.lookupUrl ref = h.lookupUrl ref := rfl

theorem lookupHeader_clone_ne (h : Heap) (r : HttpRequest) (ref : Nat)
    (hne : ref ≠ h.next) :
    (clone h r).1.lookupHeader ref = h.lookupHeader ref := by
  unfold clone allocHeader Heap.lookupHeader
  dsimp only
  rw [assocFind_cons_ne h.next ref _ h.headers (fun he => hne he.symm)]

theorem lookupHeader_allocUrl (h : Heap) (u : GoURL) (ref : Nat) :
    (allocUrl h u).1.lookupHeader ref = h.lookupHeader ref := rfl

theorem lookupUrl_allocUrl_ne (h : Heap) (u : GoURL) (ref : Nat)
    (hne : ref ≠ h.next) :
    (allocUrl h u).1.lookupUrl ref = h.lookupUrl ref := by
  unfold allocUrl Heap.lookupUrl
  dsimp only
  rw [assocFind_cons_ne h.next ref _ h.urls (fun he => hne he.symm)]

theorem lookupUrl_allocUrl_self (h : Heap) (u : GoURL) :
    (allocUrl h u).1.lookupUrl (allocUrl h u).2 = some u := by
  unfold allocUrl Heap.lookupUrl
  simp [List.find?_cons]

theorem lookupUrl_roundTrip (h : Heap) (q : GoURL) (r : HttpRequest) (ref : Nat)
    (hlt : ref < h.next) :
    (clone (allocUrl h q).1 r).1.lookupUrl ref = h.lookupUrl ref := by
  rw [lookupUrl_clone]
  exact lookupUrl_allocUrl_ne h q ref (by omega)

theorem lookupHeader_roundTrip (h : Heap) (q : GoURL) (r : HttpRequest) (ref : Nat)
    (hlt : ref < h.next) :
    (clone (allocUrl h q).1 r).1.lookupHeader ref = h.lookupHeader ref := by
  rw [lookupHeader_clone_ne ((allocUrl h q).1) r ref (by show ref ≠ h.next + 1; omega)]
  rfl

/-- C6 as amended: when the owner base URL parses, the dispatched clone's
URL is the base URL with its path REPLACED by the boundary path (a
non-empty base path is discarded, not prefixed) and its raw query set to
q= plus the percent-encoding of the original request URL's string form,
and the clone's Host is the rewritten URL's host. -/
theorem C6_amended_dispatch_url (c : Client) (h : Heap) (r : HttpRequest)
    (u0 u : GoURL)
    (hu : h.lookupUrl r.urlRef = some u0)
    (hp : urlParse (c.choosePeer (urlString u0)) = some u) :
    ∃ hc : Heap × HttpRequest,
      (Client.RoundTrip c h r).2 = some hc ∧
      hc.1.lookupUrl hc.2.urlRef
        = some { u with path := c.path, rawQuery := "q=" ++ queryEscape (urlString u0) } ∧
      hc.2.host = u.host := by
  have hg : (h.lookupUrl r.urlRef).getD default = u0 := by rw [hu]; rfl
  simp only [Client.RoundTrip, roundTripTo, peerHandlerURL, hg, hp, Option.map_some]
  refine ⟨_, rfl, ?_, rfl⟩
  exact lookupUrl_allocUrl_self h _

/-- Counterexample to C6 as stated: for the owner base "http://h/sub"
(non-empty base path) the dispatched URL's path is the boundary path
"/proxy", not the concatenation "/sub/proxy" of owner-base path and
boundary path. -/
theorem C6_counterexample :
    urlParse "http://h/sub" = some ⟨"http", "h", "/sub", "", ""⟩ ∧
      (roundTripTo "/proxy" "http://h/sub"
          ⟨[(0, ⟨"http", "o", "/x", "", ""⟩)], [(1, [("A", ["b"])])], 2⟩
          ⟨0, "o", 1⟩).map
          (fun x => (x.1.lookupUrl x.2.urlRef).map (fun v => v.path))
        = some (some "/proxy") ∧
      ("/proxy" : String) ≠ "/sub" ++ "/proxy" := by
  decide

/-- Witness for the amended C6 at a concrete pool of one peer. -/
theorem C6_amended_dispatch_url_witness :
    ∃ hc : Heap × HttpRequest,
      (Client.RoundTrip
          ⟨"/p", 1, fun _ => 0, ["http://h:8000"],
            HashRing.Add ⟨1, fun _ => 0, []⟩ ["http://h:8000"]⟩
          ⟨[(0, ⟨"http", "o", "/x", "", ""⟩)], [(1, [("A", ["b"])])], 2⟩
          ⟨0, "o", 1⟩).2 = some hc ∧
      hc.1.lookupUrl hc.2.urlRef
        = some ⟨"http", "h:8000", "/p", "",
            "q=" ++ queryEscape (urlString ⟨"http", "o", "/x", "", ""⟩)⟩ ∧
      hc.2.host = "h:8000" :=
  C6_amended_dispatch_url
    ⟨"/p", 1, fun _ => 0, ["http://h:8000"],
      HashRing.Add ⟨1, fun _ => 0, []⟩ ["http://h:8000"]⟩
    ⟨[(0, ⟨"http", "o", "/x", "", ""⟩)], [(1, [("A", ["b"])])], 2⟩
    ⟨0, "o", 1⟩ ⟨"http", "o", "/x", "", ""⟩ ⟨"http", "h:8000", "", "", ""⟩
    (by decide) (by decide)

/-- C7: a forwarding RoundTrip leaves the caller's request untouched: the
URL cell and the header cell (all keys and value slices) referenced by the
original request still hold exactly their old values after the call (the
request record itself is only read; all writes go to the clone). -/
theorem C7_clone_isolation (c : Client) (h : Heap) (r : HttpRequest)
    (u0 : GoURL) (hd0 : List (String × List String)) (u : GoURL)
    (hwf : Heap.WF h)
    (hu : h.lookupUrl r.urlRef = some u0)
    (hh : h.lookupHeader r.headerRef = some hd0)
    (hp : urlParse (c.choosePeer (urlString u0)) = some u) :
    ∃ hc : Heap × HttpRequest,
      (Client.RoundTrip c h r).2 = some hc ∧
      hc.1.lookupUrl r.urlRef = some u0 ∧
      hc.1.lookupHeader r.headerRef = some hd0 := by
  have hru := lookupUrl_lt_next h hwf r.urlRef u0 hu
  have hrh := lookupHeader_lt_next h hwf r.headerRef hd0 hh
  have hg : (h.lookupUrl r.urlRef).getD default = u0 := by rw [hu]; rfl
  simp only [Client.RoundTrip, roundTripTo, peerHandlerURL, hg, hp, Option.map_some]
  refine ⟨_, rfl, ?_, ?_⟩
  · rw [lookupUrl_roundTrip h _ r r.urlRef hru]
    exact hu
  · rw [lookupHeader_roundTrip h _ r r.headerRef hrh]
    exact hh

/-- Witness for C7 at the same concrete pool, heap and request. -/
theorem C7_clone_isolation_witness :
    ∃ hc : Heap × HttpRequest,
      (Client.RoundTrip
          ⟨"/p", 1, fun _ => 0, ["http://h:8000"],
            HashRing.Add ⟨1, fun _ => 0, []⟩ ["http://h:8000"]⟩
          ⟨[(0, ⟨"http", "o", "/x", "", ""⟩)], [(1, [("A", ["b"])])], 2⟩
          ⟨0, "o", 1⟩).2 = some hc ∧
      hc.1.lookupUrl 0 = some ⟨"http", "o", "/x", "", ""⟩ ∧
      hc.1.lookupHeader 1 = some [("A", ["b"])] :=
  C7_clone_isolation
    ⟨"/p", 1, fun _ => 0, ["http://h:8000"],
      HashRing.Add ⟨1, fun _ => 0, []⟩ ["http://h:8000"]⟩
    ⟨[(0, ⟨"http", "o", "/x", "", ""⟩)], [(1, [("A", ["b"])])], 2⟩
    ⟨0, "o", 1⟩ ⟨"http", "o", "/x", "", ""⟩ [("A", ["b"])]
    ⟨"http", "h:8000", "", "", ""⟩
    (by constructor <;> decide) (by decide) (by decide) (by decide)

/-- C8: Peer.RoundTrip short-circuits locally exactly when the ring
resolves the request URL's owner to the peer's own identity: then the
untouched heap and request go straight to the local proxy transport (no
clone, no allocation, no rewrite); otherwise the request goes through the
Client forwarding path to the resolved owner. -/
theorem C8_local_short_circuit (p : Peer) (h : Heap) (r : HttpRequest) :
    (p.client.choosePeer (urlString ((h.lookupUrl r.urlRef).getD default)) = p.self →
      Peer.RoundTrip p h r = PeerDispatch.localTransport h r) ∧
    (p.client.choosePeer (urlString ((h.lookupUrl r.urlRef).getD default)) ≠ p.self →
      Peer.RoundTrip p h r = PeerDispatch.remote
        (p.client.choosePeer (urlString ((h.lookupUrl r.urlRef).getD default)))
        (roundTripTo p.client.path
          (p.client.choosePeer (urlString ((h.lookupUrl r.urlRef).getD default))) h r)) := by
  constructor
  · intro he
    simp [Peer.RoundTrip, he]
  · intro he
    simp only [Peer.RoundTrip, if_neg he]

/-- Witness for C8: a one-peer pool whose single member is the peer itself
(local dispatch), and the same pool viewed from a non-member identity
(remote dispatch). -/
theorem C8_local_short_circuit_witness :
    Peer.RoundTrip
        ⟨⟨"/p", 1, fun _ => 0, ["http://self"],
            HashRing.Add ⟨1, fun _ => 0, []⟩ ["http://self"]⟩, "http://self"⟩
        ⟨[(0, ⟨"http", "o", "/x", "", ""⟩)], [(1, [("A", ["b"])])], 2⟩ ⟨0, "o", 1⟩
      = PeerDispatch.localTransport
          ⟨[(0, ⟨"http", "o", "/x", "", ""⟩)], [(1, [("A", ["b"])])], 2⟩ ⟨0, "o", 1⟩ ∧
    Peer.RoundTrip
        ⟨⟨"/p", 1, fun _ => 0, ["http://self"],
            HashRing.Add ⟨1, fun _ => 0, []⟩ ["http://self"]⟩, "http://other"⟩
        ⟨[(0, ⟨"http", "o", "/x", "", ""⟩)], [(1, [("A", ["b"])])], 2⟩ ⟨0, "o", 1⟩
      = PeerDispatch.remote "http://self"
          (roundTripTo "/p" "http://self"
            ⟨[(0, ⟨"http", "o", "/x", "", ""⟩)], [(1, [("A", ["b"])])], 2⟩ ⟨0, "o", 1⟩) :=
  ⟨(C8_local_short_circuit
      ⟨⟨"/p", 1, fun _ => 0, ["http://self"],
          HashRing.Add ⟨1, fun _ => 0, []⟩ ["http://self"]⟩, "http://self"⟩
      ⟨[(0, ⟨"http", "o", "/x", "", ""⟩)], [(1, [("A", ["b"])])], 2⟩ ⟨0, "o", 1⟩).1
    (by decide),
   (C8_local_short_circuit
      ⟨⟨"/p", 1, fun _ => 0, ["http://self"],
          HashRing.Add ⟨1, fun _ => 0, []⟩ ["http://self"]⟩, "http://other"⟩
      ⟨[(0, ⟨"http", "o", "/x", "", ""⟩)], [(1, [("A", ["b"])])], 2⟩ ⟨0, "o", 1⟩).2
    (by decide)⟩

/-- C9: peer resolution is deterministic — for the same replica count,
the same hash function and the same peer pool set by SetPool, choosePeer
gives the same owner for the same key, whatever other state the clients
carry (no intervening SetPool between the two calls). -/
theorem C9_ring_determinism (c1 c2 : Client) (peers : List String) (key : String)
    (hrep : c1.replicas = c2.replicas) (hfn : c1.hashFn = c2.hashFn) :
    (Client.SetPool c1 peers).choosePeer key
      = (Client.SetPool c2 peers).choosePeer key := by
  unfold Client.choosePeer Client.SetPool HashRing.Add
  dsimp only
  rw [hrep, hfn]

/-- Witness for C9: two clients sharing replica count and hash function
but differing in path, pool and previous ring resolve the same key to the
same peer. -/
theorem C9_ring_determinism_witness :
    (Client.SetPool
        ⟨"/proxy", 2, fun s => s.data.length, [], ⟨2, fun s => s.data.length, []⟩⟩
        ["http://a", "http://b"]).choosePeer "http://some.url/res"
      = (Client.SetPool
          ⟨"/other", 2, fun s => s.data.length, ["x"], ⟨0, fun _ => 7, []⟩⟩
          ["http://a", "http://b"]).choosePeer "http://some.url/res" :=
  C9_ring_determinism
    ⟨"/proxy", 2, fun s => s.data.length, [], ⟨2, fun s => s.data.length, []⟩⟩
    ⟨"/other", 2, fun s => s.data.length, ["x"], ⟨0, fun _ => 7, []⟩⟩
    ["http://a", "http://b"] "http://some.url/res" rfl rfl
